import Mathlib

/-!
Verification of the Galaxy client UI sources: broadcast notification store,
data providers, workflow editor options toolbar, and the filtering engine.

Shallow embedding conventions:
* JavaScript `Date` comparison is modelled by an abstract parsing function
  `parseDate : String → Int` (epoch instants) together with a current instant
  `now : Int`; `new Date(s + "Z") < new Date()` becomes `parseDate s < now`.
* The client-local persisted dismissal map (`useUserLocalStorage`) is an
  association list from broadcast id to an `Expirable` record; JavaScript
  property lookup (`map[key]`, truthy iff present) is `lookupDismissed`.
* Asynchronous fetches are modelled by passing the response (or, where error
  behaviour matters, an `Except` value) as an explicit argument.
-/

namespace Galaxy

/-- Broadcast notification record, from `BroadcastNotificationResponse`:
`id`, `create_time` (as an instant), optional `expiration_time` (kept as the
raw string, absent when the field is missing), and an opaque payload. -/
structure BroadcastNotification where
  id : String
  create_time : Int
  expiration_time : Option String
  payload : String
  deriving DecidableEq, Repr

/-- The `Expirable` record stored in the dismissal map:
`Pick<BroadcastNotification, "expiration_time">`. -/
structure Expirable where
  expiration_time : Option String
  deriving DecidableEq, Repr

/-- State of `useBroadcastsStore`: the broadcasts list, the persisted
dismissal map (association list keyed by broadcast id), and the loading flag. -/
structure BroadcastsStoreState where
  broadcasts : List BroadcastNotification
  dismissedBroadcasts : List (String × Expirable)
  loadingBroadcasts : Bool
  deriving DecidableEq, Repr

/-- JavaScript-style property lookup in the dismissal map: the first binding
for the given id, if any. -/
def lookupDismissed (m : List (String × Expirable)) (id : String) : Option Expirable :=
  match m with
  | [] => none
  | p :: rest => if p.1 = id then some p.2 else lookupDismissed rest id

/-- Vue.set-style insertion into the dismissal map: replace the binding for
the id when present, otherwise append it. -/
def setDismissed (m : List (String × Expirable)) (id : String) (e : Expirable) :
    List (String × Expirable) :=
  match m with
  | [] => [(id, e)]
  | p :: rest => if p.1 = id then (id, e) :: rest else p :: setDismissed rest id e

/-- Embedding of `hasExpired(expirationTimeStr?)`: a missing or empty string
is falsy (`!expirationTimeStr`), so it never counts as expired; otherwise the
string is parsed as a UTC instant and compared with `now > expirationTime`. -/
def hasExpired (parseDate : String → Int) (now : Int) : Option String → Bool
  | none => false
  | some s => if s = "" then false else decide (parseDate s < now)

/-- Removes duplicate ids from a list of broadcasts, keeping the first
occurrence of each id; `seen` accumulates the ids already emitted. -/
def dedupByIdAux : List BroadcastNotification → List String → List BroadcastNotification
  | [], _ => []
  | b :: rest, seen =>
    if b.id ∈ seen then dedupByIdAux rest seen
    else b :: dedupByIdAux rest (b.id :: seen)

/-- Removes duplicate ids from a list of broadcasts, keeping the first
occurrence of each id. -/
def dedupById (l : List BroadcastNotification) : List BroadcastNotification :=
  dedupByIdAux l []

/-- Ordering used by the broadcast merge: `create_time` descending. -/
def byCreateTimeDesc (a b : BroadcastNotification) : Prop :=
  b.create_time ≤ a.create_time

instance : DecidableRel byCreateTimeDesc := fun a b =>
  inferInstanceAs (Decidable (b.create_time ≤ a.create_time))

/-- Modelled from the spec: `mergeObjectListsById` (imported from
`@/utils/utils`, not part of the sources) merges the incoming (second) list
into the current (first) list — an incoming element replaces an existing
element with the same id — then deduplicates by id and orders the result by
`create_time` descending. -/
def mergeObjectListsById (current incoming : List BroadcastNotification) :
    List BroadcastNotification :=
  let updated := current.map (fun c =>
    match incoming.find? (fun i => i.id == c.id) with
    | some i => i
    | none => c)
  let added := incoming.filter (fun i => ¬ current.any (fun c => c.id == i.id))
  List.insertionSort byCreateTimeDesc (dedupById (updated ++ added))

/-- Embedding of `loadBroadcasts()` (success path): the fetched list replaces
the stored one via `mergeObjectListsById(data, [], "create_time", "desc")`,
and the loading flag ends up false. The HTTP response is the `fetched`
argument. -/
def loadBroadcasts (fetched : List BroadcastNotification) (s : BroadcastsStoreState) :
    BroadcastsStoreState :=
  { s with broadcasts := mergeObjectListsById fetched [], loadingBroadcasts := false }

/-- Embedding of `updateBroadcasts(broadcastList)`: merge the incoming list
into the stored one, then drop every broadcast whose `expiration_time` has
passed. -/
def updateBroadcasts (parseDate : String → Int) (now : Int)
    (broadcastList : List BroadcastNotification) (s : BroadcastsStoreState) :
    BroadcastsStoreState :=
  let merged := mergeObjectListsById s.broadcasts broadcastList
  { s with broadcasts := merged.filter (fun b => !(hasExpired parseDate now b.expiration_time)) }

/-- Embedding of `dismissBroadcast(broadcast)`: record the broadcast's id and
expiration time in the persisted dismissal map. -/
def dismissBroadcast (broadcast : BroadcastNotification) (s : BroadcastsStoreState) :
    BroadcastsStoreState :=
  { s with dismissedBroadcasts :=
      setDismissed s.dismissedBroadcasts broadcast.id ⟨broadcast.expiration_time⟩ }

/-- Embedding of `clearExpiredDismissedBroadcasts()`: delete every dismissal
record whose `expiration_time` has passed. -/
def clearExpiredDismissedBroadcasts (parseDate : String → Int) (now : Int)
    (s : BroadcastsStoreState) : BroadcastsStoreState :=
  let kept := s.dismissedBroadcasts.filter (fun p => !(hasExpired parseDate now p.2.expiration_time))
  { s with dismissedBroadcasts := kept }

/-- Embedding of the computed `activeBroadcasts`: the stored broadcasts whose
id has no record in the dismissal map (`!dismissedBroadcasts.value[b.id]`). -/
def activeBroadcasts (s : BroadcastsStoreState) : List BroadcastNotification :=
  s.broadcasts.filter (fun b => (lookupDismissed s.dismissedBroadcasts b.id).isNone)

/-- Store initialization: the store starts with an empty broadcasts list and
the persisted dismissal map, and `clearExpiredDismissedBroadcasts()` runs
once at the end of the setup body. -/
def initBroadcastsStore (parseDate : String → Int) (now : Int)
    (persistedDismissed : List (String × Expirable)) : BroadcastsStoreState :=
  clearExpiredDismissedBroadcasts parseDate now
    { broadcasts := [], dismissedBroadcasts := persistedDismissed, loadingBroadcasts := false }

/-- Concrete instant-parsing function used by witnesses: the instant of a
string is its length. -/
def sampleParseDate : String → Int := fun s => Int.ofNat s.length

/-- Sample broadcast with no expiration time. -/
def sampleFresh : BroadcastNotification :=
  { id := "a", create_time := 5, expiration_time := none, payload := "" }

/-- Sample broadcast whose expiration time has passed at `sampleParseDate`
instant 2 (its expiration string has length 1). -/
def sampleExpired : BroadcastNotification :=
  { id := "e", create_time := 3, expiration_time := some "x", payload := "" }

/-- Sample store state with no broadcasts and no dismissal records. -/
def sampleEmptyState : BroadcastsStoreState :=
  { broadcasts := [], dismissedBroadcasts := [], loadingBroadcasts := false }

theorem mem_dedupByIdAux {l : List BroadcastNotification} {seen : List String}
    {x : BroadcastNotification} (h : x ∈ dedupByIdAux l seen) : x ∈ l := by
  induction l generalizing seen with
  | nil => simp [dedupByIdAux] at h
  | cons b rest ih =>
    rw [dedupByIdAux] at h
    split at h
    · exact List.mem_cons_of_mem _ (ih h)
    · rcases List.mem_cons.mp h with rfl | h2
      · exact List.mem_cons_self _ _
      · exact List.mem_cons_of_mem _ (ih h2)

theorem mem_dedupById {l : List BroadcastNotification} {x : BroadcastNotification}
    (h : x ∈ dedupById l) : x ∈ l :=
  mem_dedupByIdAux h

theorem id_not_seen_dedupByIdAux {l : List BroadcastNotification} {seen : List String}
    {x : BroadcastNotification} (h : x ∈ dedupByIdAux l seen) : x.id ∉ seen := by
  induction l generalizing seen with
  | nil => simp [dedupByIdAux] at h
  | cons b rest ih =>
    rw [dedupByIdAux] at h
    split at h
    · exact ih h
    · rcases List.mem_cons.mp h with rfl | h2
      · assumption
      · intro hm
        exact ih h2 (List.mem_cons_of_mem _ hm)

theorem pairwise_dedupByIdAux (l : List BroadcastNotification) (seen : List String) :
    List.Pairwise (fun a b => a.id ≠ b.id) (dedupByIdAux l seen) := by
  induction l generalizing seen with
  | nil => simp [dedupByIdAux]
  | cons b rest ih =>
    rw [dedupByIdAux]
    split
    · exact ih seen
    · refine List.pairwise_cons.mpr ⟨?_, ih _⟩
      intro y hy he
      exact id_not_seen_dedupByIdAux hy (he ▸ List.mem_cons_self _ _)

theorem pairwise_dedupById (l : List BroadcastNotification) :
    List.Pairwise (fun a b => a.id ≠ b.id) (dedupById l) :=
  pairwise_dedupByIdAux l []

theorem id_mem_dedupByIdAux {l : List BroadcastNotification} {seen : List String}
    {x : BroadcastNotification} (h : x ∈ l) (hs : x.id ∉ seen) :
    ∃ y ∈ dedupByIdAux l seen, y.id = x.id := by
  induction l generalizing seen with
  | nil => simp at h
  | cons b rest ih =>
    rw [dedupByIdAux]
    by_cases hb : b.id ∈ seen
    · rw [if_pos hb]
      rcases List.mem_cons.mp h with rfl | h2
      · exact absurd hb hs
      · exact ih h2 hs
    · rw [if_neg hb]
      rcases List.mem_cons.mp h with rfl | h2
      · exact ⟨x, List.mem_cons_self _ _, rfl⟩
      · by_cases hid : x.id = b.id
        · exact ⟨b, List.mem_cons_self _ _, hid.symm⟩
        · obtain ⟨y, hy, hyid⟩ := ih h2 (by
            intro hm
            rcases List.mem_cons.mp hm with he | hm2
            · exact hid he
            · exact hs hm2)
          exact ⟨y, List.mem_cons_of_mem _ hy, hyid⟩

theorem id_mem_dedupById {l : List BroadcastNotification} {x : BroadcastNotification}
    (h : x ∈ l) : ∃ y ∈ dedupById l, y.id = x.id :=
  id_mem_dedupByIdAux h (by simp)

theorem mergeObjectListsById_nil (l : List BroadcastNotification) :
    mergeObjectListsById l [] = List.insertionSort byCreateTimeDesc (dedupById l) := by
  simp [mergeObjectListsById]

/-- C1: after `updateBroadcasts`, the stored broadcasts list contains no
broadcast whose `expiration_time` (interpreted as a UTC instant) has passed:
every surviving element is not expired — its expiration time is absent,
empty, or not earlier than `now`. -/
theorem updateBroadcasts_no_expired (parseDate : String → Int) (now : Int)
    (broadcastList : List BroadcastNotification) (s : BroadcastsStoreState)
    (b : BroadcastNotification)
    (hb : b ∈ (updateBroadcasts parseDate now broadcastList s).broadcasts) :
    hasExpired parseDate now b.expiration_time = false := by
  rw [updateBroadcasts] at hb
  have := List.of_mem_filter hb
  simpa using this

/-- Witness for C1 at a concrete input: the unexpired sample broadcast
survives a concrete `updateBroadcasts` call, and the theorem yields that it
is not expired. -/
theorem updateBroadcasts_no_expired_witness :
    sampleFresh ∈ (updateBroadcasts sampleParseDate 2 [sampleFresh, sampleExpired]
        sampleEmptyState).broadcasts ∧
    hasExpired sampleParseDate 2 sampleFresh.expiration_time = false :=
  ⟨by decide,
   updateBroadcasts_no_expired sampleParseDate 2 [sampleFresh, sampleExpired]
     sampleEmptyState sampleFresh (by decide)⟩

/-- Helper: a binding found by `lookupDismissed` survives `List.filter` when
the filter predicate accepts it. -/
theorem lookupDismissed_filter_of_kept {m : List (String × Expirable)}
    {q : String × Expirable → Bool} {id : String} {e : Expirable}
    (h : lookupDismissed m id = some e) (hq : q (id, e) = true) :
    ∃ e2, lookupDismissed (m.filter q) id = some e2 := by
  induction m with
  | nil => simp [lookupDismissed] at h
  | cons p rest ih =>
    rw [lookupDismissed] at h
    by_cases hp : p.1 = id
    · rw [if_pos hp] at h
      injection h with he
      have hpe : p = (id, e) := by
        cases p
        simp_all
      rw [List.filter_cons_of_pos (by rw [hpe]; exact hq)]
      exact ⟨e, by rw [lookupDismissed, if_pos hp, he]⟩
    · rw [if_neg hp] at h
      obtain ⟨e2, he2⟩ := ih h
      by_cases hqp : q p = true
      · rw [List.filter_cons_of_pos hqp]
        exact ⟨e2, by rw [lookupDismissed, if_neg hp]; exact he2⟩
      · rw [List.filter_cons_of_neg (by simpa using hqp)]
        exact ⟨e2, he2⟩

/-- Helper: `setDismissed` followed by `lookupDismissed` at the same id finds
the freshly written record. -/
theorem lookupDismissed_setDismissed (m : List (String × Expirable)) (id : String)
    (e : Expirable) : lookupDismissed (setDismissed m id e) id = some e := by
  induction m with
  | nil => simp [setDismissed, lookupDismissed]
  | cons p rest ih =>
    by_cases h : p.1 = id
    · simp [setDismissed, h, lookupDismissed]
    · simp [setDismissed, h, lookupDismissed, ih]

/-- Store state for the C2 counterexample: one already-expired broadcast in
the list, no dismissal record. -/
def sampleExpiredState : BroadcastsStoreState :=
  { broadcasts := [sampleExpired], dismissedBroadcasts := [], loadingBroadcasts := false }

/-- C2 counterexample: an expired broadcast held in the store remains in
`activeBroadcasts` after `clearExpiredDismissedBroadcasts` runs — that
function only purges the dismissal map and never filters the broadcasts
list, and `activeBroadcasts` only checks the dismissal map. -/
theorem clearExpired_leaves_expired_active_cex :
    hasExpired sampleParseDate 2 sampleExpired.expiration_time = true ∧
    sampleExpired ∈ activeBroadcasts
      (clearExpiredDismissedBroadcasts sampleParseDate 2 sampleExpiredState) := by
  decide

/-- C2 (amended): `clearExpiredDismissedBroadcasts` purges exactly the
dismissal records whose expiration has passed, leaving no expired record in
the map; it does not remove an expired broadcast from `activeBroadcasts` —
an expired broadcast is dropped from the stored list (and hence from
`activeBroadcasts`) by `updateBroadcasts` instead. -/
theorem clearExpired_purges_map_and_update_drops_expired
    (parseDate : String → Int) (now : Int)
    (broadcastList : List BroadcastNotification) (s : BroadcastsStoreState)
    (b : BroadcastNotification)
    (hb : hasExpired parseDate now b.expiration_time = true) :
    (∀ p ∈ (clearExpiredDismissedBroadcasts parseDate now s).dismissedBroadcasts,
      hasExpired parseDate now p.2.expiration_time = false) ∧
    b ∉ (updateBroadcasts parseDate now broadcastList s).broadcasts ∧
    b ∉ activeBroadcasts (updateBroadcasts parseDate now broadcastList s) := by
  have hdrop : b ∉ (updateBroadcasts parseDate now broadcastList s).broadcasts := by
    intro hmem
    rw [updateBroadcasts] at hmem
    have := List.of_mem_filter hmem
    simp [hb] at this
  refine ⟨?_, hdrop, ?_⟩
  · intro p hp
    rw [clearExpiredDismissedBroadcasts] at hp
    have := List.of_mem_filter hp
    simpa using this
  · intro hmem
    exact hdrop (List.mem_of_mem_filter hmem)

/-- Witness for the amended C2 at a concrete input: the concrete expired
broadcast is indeed expired there, and is absent from the broadcasts list
after a concrete `updateBroadcasts` call. -/
theorem clearExpired_purges_map_witness :
    sampleExpired ∉ (updateBroadcasts sampleParseDate 2 [sampleExpired]
      sampleEmptyState).broadcasts :=
  (clearExpired_purges_map_and_update_drops_expired sampleParseDate 2 [sampleExpired]
    sampleEmptyState sampleExpired (by decide)).2.1

/-- C3: `dismissBroadcast(b)` records `b.id` with `b`'s expiration time in
the dismissal map; after a subsequent reload of the broadcasts list the id
stays excluded from `activeBroadcasts`, and — as long as `b`'s expiration has
not passed — it stays excluded even after the dismissal map is purged by
`clearExpiredDismissedBroadcasts`. -/
theorem dismiss_reload_excludes (parseDate : String → Int) (now : Int)
    (s : BroadcastsStoreState) (b : BroadcastNotification)
    (fetched : List BroadcastNotification)
    (h : hasExpired parseDate now b.expiration_time = false) :
    lookupDismissed (dismissBroadcast b s).dismissedBroadcasts b.id =
      some ⟨b.expiration_time⟩ ∧
    (∀ x ∈ activeBroadcasts (loadBroadcasts fetched (dismissBroadcast b s)), x.id ≠ b.id) ∧
    (∀ x ∈ activeBroadcasts (clearExpiredDismissedBroadcasts parseDate now
        (loadBroadcasts fetched (dismissBroadcast b s))), x.id ≠ b.id) := by
  have hl : lookupDismissed (dismissBroadcast b s).dismissedBroadcasts b.id =
      some ⟨b.expiration_time⟩ :=
    lookupDismissed_setDismissed s.dismissedBroadcasts b.id ⟨b.expiration_time⟩
  refine ⟨hl, ?_, ?_⟩
  · intro x hx he
    have hcond := List.of_mem_filter hx
    rw [he] at hcond
    have : lookupDismissed (loadBroadcasts fetched (dismissBroadcast b s)).dismissedBroadcasts
        b.id = some ⟨b.expiration_time⟩ := hl
    rw [this] at hcond
    simp at hcond
  · intro x hx he
    have hcond := List.of_mem_filter hx
    rw [he] at hcond
    obtain ⟨e2, he2⟩ := lookupDismissed_filter_of_kept
      (m := (loadBroadcasts fetched (dismissBroadcast b s)).dismissedBroadcasts)
      (q := fun p => !(hasExpired parseDate now p.2.expiration_time))
      hl (by simp [h])
    rw [clearExpiredDismissedBroadcasts] at hcond
    rw [he2] at hcond
    simp at hcond

/-- Witness for C3 at a concrete input: after dismissing the concrete
unexpired broadcast in the empty store, the dismissal map records its id and
expiration time. -/
theorem dismiss_reload_excludes_witness :
    lookupDismissed (dismissBroadcast sampleFresh sampleEmptyState).dismissedBroadcasts
      sampleFresh.id = some ⟨sampleFresh.expiration_time⟩ :=
  (dismiss_reload_excludes sampleParseDate 2 sampleEmptyState sampleFresh [sampleFresh]
    (by decide)).1

/-- C4: `loadBroadcasts` replaces the stored list with the fetched
broadcasts — the result does not depend on the previous local contents,
every element of it comes from the fetched list, it is ordered by
`create_time` descending, it has no duplicate ids, and every fetched id is
represented. -/
theorem loadBroadcasts_replaces (fetched : List BroadcastNotification)
    (s t : BroadcastsStoreState) :
    (loadBroadcasts fetched s).broadcasts = (loadBroadcasts fetched t).broadcasts ∧
    (∀ b ∈ (loadBroadcasts fetched s).broadcasts, b ∈ fetched) ∧
    List.Sorted byCreateTimeDesc (loadBroadcasts fetched s).broadcasts ∧
    List.Pairwise (fun a b => a.id ≠ b.id) (loadBroadcasts fetched s).broadcasts ∧
    (∀ x ∈ fetched, ∃ y ∈ (loadBroadcasts fetched s).broadcasts, y.id = x.id) := by
  have hbr : (loadBroadcasts fetched s).broadcasts =
      List.insertionSort byCreateTimeDesc (dedupById fetched) := by
    rw [loadBroadcasts]
    exact mergeObjectListsById_nil fetched
  haveI : IsTotal BroadcastNotification byCreateTimeDesc :=
    ⟨fun a b => le_total b.create_time a.create_time⟩
  haveI : IsTrans BroadcastNotification byCreateTimeDesc :=
    ⟨fun _ _ _ hab hbc => le_trans hbc hab⟩
  refine ⟨rfl, ?_, ?_, ?_, ?_⟩
  · intro b hb
    rw [hbr] at hb
    exact mem_dedupById ((List.mem_insertionSort _).mp hb)
  · rw [hbr]
    exact List.sorted_insertionSort _ _
  · rw [hbr]
    exact ((List.perm_insertionSort byCreateTimeDesc _).pairwise_iff
      (fun hab he => hab he.symm)).mpr (pairwise_dedupById fetched)
  · intro x hx
    obtain ⟨y, hy, hyid⟩ := id_mem_dedupById hx
    exact ⟨y, by rw [hbr]; exact (List.mem_insertionSort _).mpr hy, hyid⟩

/-- Witness for C4 at a concrete input: the id of the concrete fetched
broadcast is represented in the replaced list. -/
theorem loadBroadcasts_replaces_witness :
    ∃ y ∈ (loadBroadcasts [sampleFresh] sampleEmptyState).broadcasts,
      y.id = sampleFresh.id :=
  (loadBroadcasts_replaces [sampleFresh] sampleEmptyState sampleEmptyState).2.2.2.2
    sampleFresh (by decide)

/-- C5: after `clearExpiredDismissedBroadcasts` runs at store
initialization, the dismissal map is exactly the persisted map restricted to
records whose expiration has not passed: no expired record remains, and
every unexpired record survives unchanged. -/
theorem initStore_purges_expired_dismissals (parseDate : String → Int) (now : Int)
    (m : List (String × Expirable)) :
    (initBroadcastsStore parseDate now m).dismissedBroadcasts =
      m.filter (fun p => !(hasExpired parseDate now p.2.expiration_time)) ∧
    (∀ p ∈ (initBroadcastsStore parseDate now m).dismissedBroadcasts,
      hasExpired parseDate now p.2.expiration_time = false) ∧
    (∀ p ∈ m, hasExpired parseDate now p.2.expiration_time = false →
      p ∈ (initBroadcastsStore parseDate now m).dismissedBroadcasts) := by
  refine ⟨rfl, ?_, ?_⟩
  · intro p hp
    have := List.of_mem_filter hp
    simpa using this
  · intro p hp hno
    exact List.mem_filter.mpr ⟨hp, by simp [hno]⟩

/-- Dismissal record with no expiration time, used by witnesses. -/
def sampleDismissal : String × Expirable := ("a", ⟨none⟩)

/-- Witness for C5 at a concrete input: the concrete never-expiring
dismissal record survives store initialization. -/
theorem initStore_purges_expired_dismissals_witness :
    sampleDismissal ∈ (initBroadcastsStore sampleParseDate 2
      [sampleDismissal]).dismissedBroadcasts :=
  (initStore_purges_expired_dismissals sampleParseDate 2 [sampleDismissal]).2.2
    sampleDismissal (by decide) (by decide)

/-- C9: a broadcast or dismissal record whose `expiration_time` is absent or
the empty string never counts as expired: `hasExpired` is false on it,
`updateBroadcasts` keeps every such merged broadcast, and
`clearExpiredDismissedBroadcasts` keeps every such dismissal record. -/
theorem no_expiration_never_expires (parseDate : String → Int) (now : Int)
    (broadcastList : List BroadcastNotification) (s : BroadcastsStoreState)
    (b : BroadcastNotification) (p : String × Expirable)
    (hb : b.expiration_time = none ∨ b.expiration_time = some "") :
    hasExpired parseDate now b.expiration_time = false ∧
    (b ∈ mergeObjectListsById s.broadcasts broadcastList →
      b ∈ (updateBroadcasts parseDate now broadcastList s).broadcasts) ∧
    (p ∈ s.dismissedBroadcasts →
      (p.2.expiration_time = none ∨ p.2.expiration_time = some "") →
      p ∈ (clearExpiredDismissedBroadcasts parseDate now s).dismissedBroadcasts) := by
  have hex : ∀ (e : Option String), (e = none ∨ e = some "") →
      hasExpired parseDate now e = false := by
    intro e he
    rcases he with rfl | rfl
    · rfl
    · simp [hasExpired]
  refine ⟨hex _ hb, ?_, ?_⟩
  · intro hm
    rw [updateBroadcasts]
    exact List.mem_filter.mpr ⟨hm, by simp [hex _ hb]⟩
  · intro hp hpe
    rw [clearExpiredDismissedBroadcasts]
    exact List.mem_filter.mpr ⟨hp, by simp [hex _ hpe]⟩

/-- Witness for C9 at a concrete input: the concrete broadcast without an
expiration time survives a concrete `updateBroadcasts` call. -/
theorem no_expiration_never_expires_witness :
    sampleFresh ∈ (updateBroadcasts sampleParseDate 2 [sampleFresh]
      sampleEmptyState).broadcasts :=
  (no_expiration_never_expires sampleParseDate 2 [sampleFresh] sampleEmptyState
    sampleFresh sampleDismissal (Or.inl rfl)).2.1 (by decide)

/-- State exposed by `SimpleProviderMixin`: the `loading` flag and the
fetched `item` (`null` before the first successful load). -/
structure ProviderState (Item : Type) where
  loading : Bool
  item : Option Item
  deriving DecidableEq, Repr

/-- Embedding of `SimpleProviderMixin.load()`: set `loading`, await the GET
(whose outcome is the `fetchResult` argument), then store the response and
clear `loading`. There is no try/catch, so a rejected fetch propagates: the
function rethrows the error, leaving no final state. On success it returns
the trace of states — first the loading state, then the final state. -/
def simpleLoad {E Item : Type} (fetchResult : Except E Item) (s : ProviderState Item) :
    Except E (List (ProviderState Item)) :=
  let s1 : ProviderState Item := { s with loading := true }
  match fetchResult with
  | Except.error e => Except.error e
  | Except.ok d => Except.ok [s1, { loading := false, item := some d }]

/-- Embedding of the `id` watcher of `SimpleProviderMixin` (declared with
`immediate: true`, so on first mount it fires with `oldVal` undefined):
`load()` runs only when `newVal !== oldVal`; otherwise nothing happens and no
fetch is issued (the empty trace). -/
def idWatchHandler {E Item : Type} (fetchResult : Except E Item) (newVal : String)
    (oldVal : Option String) (s : ProviderState Item) :
    Except E (List (ProviderState Item)) :=
  if some newVal ≠ oldVal then simpleLoad fetchResult s else Except.ok []

/-- State exposed by the store-backed `StoreProvider`: the `loading` flag and
the captured `error` (null when the last load succeeded). -/
structure StoreProviderState (E : Type) where
  loading : Bool
  error : Option E
  deriving DecidableEq, Repr

/-- Embedding of `StoreProvider.load()`: set `loading`, await the store
action (outcome given by `actionResult`); on success clear `error` and
`loading`, on failure catch the error, store it in `error`, and clear
`loading`. Either way a final state is produced — the error never escapes. -/
def storeLoad {E : Type} (actionResult : Except E Unit) (s : StoreProviderState E) :
    StoreProviderState E :=
  let s1 : StoreProviderState E := { s with loading := true }
  match actionResult with
  | Except.ok _ => { s1 with error := none, loading := false }
  | Except.error e => { s1 with error := some e, loading := false }

/-- C7: for the basic provider, an id change to a different value (including
the immediate first call, where the old value is absent) runs `load`: the
trace first shows `loading = true` with the item untouched, and ends with
`loading = false` and the item replaced by the response; when the id is set
to the same value, the trace is empty — no fetch is issued. -/
theorem idWatchHandler_fetches_on_change {E Item : Type} (resp : Item)
    (f : Except E Item) (newVal : String) (oldVal : Option String)
    (s : ProviderState Item) :
    (oldVal ≠ some newVal →
      idWatchHandler (E := E) (Except.ok resp) newVal oldVal s =
        Except.ok [{ loading := true, item := s.item },
                   { loading := false, item := some resp }]) ∧
    (oldVal = some newVal → idWatchHandler f newVal oldVal s = Except.ok []) := by
  constructor
  · intro h
    rw [idWatchHandler, if_pos (fun he => h he.symm)]
    rfl
  · intro h
    rw [idWatchHandler, if_neg (by simp [h])]

/-- Witness for C7 at a concrete input: on first mount (old id absent) the
provider loads the concrete response, and with an unchanged id it does
nothing. -/
theorem idWatchHandler_fetches_on_change_witness :
    idWatchHandler (E := Unit) (Except.ok 7) "a" none ⟨false, none⟩ =
      Except.ok [⟨true, none⟩, ⟨false, some 7⟩] ∧
    idWatchHandler (E := Unit) (Except.ok 7) "a" (some "a") ⟨false, none⟩ =
      Except.ok [] :=
  ⟨(idWatchHandler_fetches_on_change 7 (Except.ok 7) "a" none ⟨false, none⟩).1
      (by decide),
   (idWatchHandler_fetches_on_change 7 (Except.ok 7) "a" (some "a") ⟨false, none⟩).2
      rfl⟩

/-- C8: on a failing request the basic provider's `load` rethrows the
rejection uncaught, while the store-backed provider's `load` catches it,
stores it in `error` with `loading` false, and a later successful load
resets `error` to null (again with `loading` false). -/
theorem load_error_handling {E Item : Type} (e : E) (s : ProviderState Item)
    (s1 s2 : StoreProviderState E) :
    simpleLoad (Except.error e) s = Except.error e ∧
    storeLoad (Except.error e) s1 = { loading := false, error := some e } ∧
    storeLoad (Except.ok ()) s2 = { loading := false, error := none } :=
  ⟨rfl, rfl, rfl⟩

/-- Events the workflow editor options toolbar can emit from its save
button. -/
inductive SaveEvent
  | onCreate
  | onSave
  deriving DecidableEq, Repr

/-- Embedding of `emitSaveOrCreate()` from `Options.vue`: emit `onCreate`
for a new temporary workflow, `onSave` otherwise. -/
def emitSaveOrCreate (isNewTempWorkflow : Bool) : SaveEvent :=
  if isNewTempWorkflow then SaveEvent.onCreate else SaveEvent.onSave

/-- Embedding of `onSave()` from `Options.vue`: with invalid connections the
user is asked to confirm (the dialog's answer is the `confirmed` argument)
and the event is emitted only on confirmation; without invalid connections
the event is emitted unconditionally. The result is the list of emitted
events. -/
def onSaveHandler (isNewTempWorkflow hasInvalidConnections confirmed : Bool) :
    List SaveEvent :=
  if hasInvalidConnections then
    if confirmed then [emitSaveOrCreate isNewTempWorkflow] else []
  else [emitSaveOrCreate isNewTempWorkflow]

/-- C10: `onSave` emits exactly one event — `onCreate` if
`isNewTempWorkflow`, else `onSave` — whenever `hasInvalidConnections` is
false; when it is true, that single event is emitted only if the dialog is
confirmed, and nothing is emitted if it is declined. -/
theorem onSaveHandler_emits (isNewTempWorkflow hasInvalidConnections confirmed : Bool) :
    (hasInvalidConnections = false →
      onSaveHandler isNewTempWorkflow hasInvalidConnections confirmed =
        [emitSaveOrCreate isNewTempWorkflow]) ∧
    (hasInvalidConnections = true → confirmed = true →
      onSaveHandler isNewTempWorkflow hasInvalidConnections confirmed =
        [emitSaveOrCreate isNewTempWorkflow]) ∧
    (hasInvalidConnections = true → confirmed = false →
      onSaveHandler isNewTempWorkflow hasInvalidConnections confirmed = []) ∧
    (isNewTempWorkflow = true → emitSaveOrCreate isNewTempWorkflow = SaveEvent.onCreate) ∧
    (isNewTempWorkflow = false → emitSaveOrCreate isNewTempWorkflow = SaveEvent.onSave) := by
  cases isNewTempWorkflow <;> cases hasInvalidConnections <;> cases confirmed <;> decide

/-- Witness for C10 at a concrete input: declining the dialog on a workflow
with invalid connections emits nothing. -/
theorem onSaveHandler_emits_witness :
    onSaveHandler true true false = [] :=
  (onSaveHandler_emits true true false).2.2.1 rfl rfl

/-- The single-quote character used by the filter mini-language for quoted
values. -/
def quoteChar : Char := Char.ofNat 39

/-- The space character separating filter tokens. -/
def spaceChar : Char := Char.ofNat 32

/-- The colon separating a filter key from its value. -/
def colonChar : Char := Char.ofNat 58

/-- Case normalization applied to unquoted filter values. -/
def lowerChars (v : List Char) : List Char := v.map Char.toLower

/-- Keys of the `validFilters` mapping that defines `HistoryFilters`. -/
def historyFilterKeys : List String :=
  ["name", "extension", "tag", "state", "genome_build", "related", "hid",
   "hid_ge", "hid_le", "create_time", "create_time_ge", "create_time_le",
   "deleted", "visible", "update_time", "update_time_ge", "update_time_gt",
   "update_time_le", "update_time_lt"]

/-- Whether a key names one of the `HistoryFilters` filter definitions. -/
def keyValidB (k : List Char) : Bool := decide (k ∈ historyFilterKeys.map String.toList)

/-- The filter that bare terms map to: the `name` filter of
`HistoryFilters`. -/
def defaultFilterKey : List Char := "name".toList

/-- Value of an active filter: quoted values are preserved verbatim,
unquoted values are case-normalized. -/
inductive FilterVal where
  | quoted (v : List Char)
  | unquoted (v : List Char)
  deriving DecidableEq, Repr

/-- Modelled from the spec: the tokenizer of `Filtering.parse` (the
`Filtering` class of `utils/filtering` is not part of the sources). The
free-text string splits on spaces, except that a region between single
quotes belongs to the current token; `cur` accumulates the current token in
reverse, `inQuote` tracks whether the scanner is inside quotes. -/
def splitTokensAux : List Char → Bool → List Char → List (List Char)
  | [], _, cur => if cur.isEmpty then [] else [cur.reverse]
  | c :: rest, inQuote, cur =>
    if c = spaceChar ∧ inQuote = false then
      if cur.isEmpty then splitTokensAux rest false []
      else cur.reverse :: splitTokensAux rest false []
    else if c = quoteChar then splitTokensAux rest (!inQuote) (c :: cur)
    else splitTokensAux rest inQuote (c :: cur)

/-- Tokenizes a filter string: space-separated tokens, quote-aware. -/
def splitTokens (s : List Char) : List (List Char) := splitTokensAux s false []

/-- Splits a token at its first colon into key and raw value, when a colon
is present. -/
def splitAtColon : List Char → Option (List Char × List Char)
  | [] => none
  | c :: rest =>
    if c = colonChar then some ([], rest)
    else
      match splitAtColon rest with
      | some (k, v) => some (c :: k, v)
      | none => none

/-- Modelled from the spec: interpretation of a raw filter value. A value
enclosed in single quotes is kept verbatim (quotes stripped); any other
value is case-normalized. -/
def parseVal (v : List Char) : FilterVal :=
  if v.head? = some quoteChar ∧ v.getLast? = some quoteChar ∧ 2 ≤ v.length then
    FilterVal.quoted ((v.drop 1).dropLast)
  else FilterVal.unquoted (lowerChars v)

/-- Modelled from the spec: interpretation of one token. A `key:value` token
with a known filter key yields that filter; a token with an unknown key is
ignored; a bare term maps to the default (`name`) filter, case-normalized. -/
def parseToken (t : List Char) : Option (List Char × FilterVal) :=
  match splitAtColon t with
  | some (k, v) => if keyValidB k then some (k, parseVal v) else none
  | none => some (defaultFilterKey, FilterVal.unquoted (lowerChars t))

/-- Sets a filter's value in the query object: replaces the existing binding
for the key if present, otherwise appends one. -/
def setFilterValue (q : List (List Char × FilterVal)) (k : List Char) (v : FilterVal) :
    List (List Char × FilterVal) :=
  if q.any (fun p => p.1 == k) then
    q.map (fun p => if p.1 == k then (k, v) else p)
  else q ++ [(k, v)]

/-- Folds one token into the query object. -/
def applyToken (q : List (List Char × FilterVal)) (t : List Char) :
    List (List Char × FilterVal) :=
  match parseToken t with
  | some (k, v) => setFilterValue q k v
  | none => q

/-- Modelled from the spec: `parse(text) -> queryObject` of the `Filtering`
engine, over the `HistoryFilters` filter definitions — an ordered mapping
from filter name to value, built token by token. -/
def parseFilterText (s : String) : List (List Char × FilterVal) :=
  (splitTokens s.toList).foldl applyToken []

/-- Renders a filter value back to text: quoted values get their quotes
back, unquoted values are emitted as-is. -/
def renderVal : FilterVal → List Char
  | FilterVal.quoted v => quoteChar :: v ++ [quoteChar]
  | FilterVal.unquoted v => v

/-- Renders one `key:value` entry of the query object. -/
def renderEntry (p : List Char × FilterVal) : List Char :=
  p.1 ++ colonChar :: renderVal p.2

/-- Joins tokens with single spaces. -/
def joinTokens : List (List Char) → List Char
  | [] => []
  | [t] => t
  | t :: ts => t ++ spaceChar :: joinTokens ts

/-- Modelled from the spec: `toString(queryObject) -> text` of the
`Filtering` engine — the entries rendered as `key:value` tokens joined by
spaces. -/
def toFilterText (q : List (List Char × FilterVal)) : String :=
  String.mk (joinTokens (q.map renderEntry))

/-- Value contains no quote character. -/
def noQuote (v : List Char) : Bool := v.all (fun c => !(c = quoteChar))

/-- Value contains neither quotes nor spaces. -/
def plainChars (v : List Char) : Bool := v.all (fun c => !(c = quoteChar) && !(c = spaceChar))

/-- Filter values as `parseFilterText` produces them: quoted values without
stray quotes, unquoted values without quotes or spaces and already
case-normalized. -/
def canonicalVal : FilterVal → Bool
  | FilterVal.quoted v => noQuote v
  | FilterVal.unquoted v => plainChars v && (lowerChars v == v)

/-- Query entries as `parseFilterText` produces them. -/
def canonicalEntry (p : List Char × FilterVal) : Bool := keyValidB p.1 && canonicalVal p.2

/-- Raw value of a well-formed `key:value` token: either a fully quoted
value whose interior has no quote, or a plain value. -/
def wfRawValue (v : List Char) : Bool :=
  if v.head? = some quoteChar then
    v.getLast? == some quoteChar && decide (2 ≤ v.length) && noQuote ((v.drop 1).dropLast)
  else plainChars v

/-- Well-formed token: a `key:value` pair with a known key and a well-formed
raw value, or a bare term without quotes or spaces. -/
def wfToken (t : List Char) : Bool :=
  match splitAtColon t with
  | some (k, v) => keyValidB k && wfRawValue v
  | none => plainChars t

/-- Well-formed filter string: every token is well-formed. -/
def wellFormedFilterText (s : String) : Bool := (splitTokens s.toList).all wfToken

/-- Quote-tracking state after scanning a character list. -/
def scanQuote : List Char → Bool → Bool
  | [], inQuote => inQuote
  | c :: rest, inQuote => scanQuote rest (if c = quoteChar then !inQuote else inQuote)

/-- Whether a character list contains no space outside quotes, scanning from
the given quote state. -/
def noUnquotedSpace : List Char → Bool → Bool
  | [], _ => true
  | c :: rest, inQuote =>
    if c = spaceChar ∧ inQuote = false then false
    else noUnquotedSpace rest (if c = quoteChar then !inQuote else inQuote)

theorem toNat_ofNat_valid (n : Nat) (h : Char.isValidCharNat n) :
    (Char.ofNat n).toNat = n := by
  rw [Char.ofNat, dif_pos h]
  rfl

theorem toLower_idem (c : Char) : c.toLower.toLower = c.toLower := by
  by_cases h : c.toNat ≥ 65 ∧ c.toNat ≤ 90
  · have h1 : c.toLower = Char.ofNat (c.toNat + 32) := by
      unfold Char.toLower
      exact if_pos h
    have hv : Char.isValidCharNat (c.toNat + 32) := by
      unfold Char.isValidCharNat
      omega
    rw [h1]
    unfold Char.toLower
    rw [toNat_ofNat_valid _ hv, if_neg (by omega)]
  · have h1 : c.toLower = c := by
      unfold Char.toLower
      exact if_neg h
    rw [h1, h1]

theorem toLower_ne_special {c : Char} (hq : c ≠ quoteChar) (hs : c ≠ spaceChar) :
    c.toLower ≠ quoteChar ∧ c.toLower ≠ spaceChar := by
  by_cases h : c.toNat ≥ 65 ∧ c.toNat ≤ 90
  · have h1 : c.toLower = Char.ofNat (c.toNat + 32) := by
      unfold Char.toLower
      exact if_pos h
    have hv : Char.isValidCharNat (c.toNat + 32) := by
      unfold Char.isValidCharNat
      omega
    have hq39 : quoteChar.toNat = 39 := by decide
    have hs32 : spaceChar.toNat = 32 := by decide
    constructor
    · intro he
      have := congrArg Char.toNat he
      rw [h1, toNat_ofNat_valid _ hv, hq39] at this
      omega
    · intro he
      have := congrArg Char.toNat he
      rw [h1, toNat_ofNat_valid _ hv, hs32] at this
      omega
  · have h1 : c.toLower = c := by
      unfold Char.toLower
      exact if_neg h
    rw [h1]
    exact ⟨hq, hs⟩

theorem lowerChars_idem (v : List Char) : lowerChars (lowerChars v) = lowerChars v := by
  rw [lowerChars, lowerChars, List.map_map]
  exact List.map_congr_left (fun c _ => toLower_idem c)

theorem plainChars_lowerChars {v : List Char} (h : plainChars v = true) :
    plainChars (lowerChars v) = true := by
  rw [plainChars, lowerChars, List.all_map]
  rw [plainChars] at h
  rw [List.all_eq_true] at h ⊢
  intro c hc
  have := h c hc
  simp only [Bool.and_eq_true, Bool.not_eq_true', decide_eq_false_iff_not] at this
  simp only [Function.comp_apply, Bool.and_eq_true, Bool.not_eq_true', decide_eq_false_iff_not]
  exact toLower_ne_special this.1 this.2

theorem scanQuote_append (a b : List Char) (i : Bool) :
    scanQuote (a ++ b) i = scanQuote b (scanQuote a i) := by
  induction a generalizing i with
  | nil => rfl
  | cons c a ih => rw [List.cons_append, scanQuote, scanQuote, ih]

theorem noUnquotedSpace_append (a b : List Char) (i : Bool) :
    noUnquotedSpace (a ++ b) i =
      (noUnquotedSpace a i && noUnquotedSpace b (scanQuote a i)) := by
  induction a generalizing i with
  | nil => simp [noUnquotedSpace, scanQuote]
  | cons c a ih =>
    rw [List.cons_append, noUnquotedSpace, noUnquotedSpace, scanQuote]
    by_cases hsp : c = spaceChar ∧ i = false
    · rw [if_pos hsp, if_pos hsp]
      simp
    · rw [if_neg hsp, if_neg hsp, ih]

theorem plain_segment {v : List Char} (h : plainChars v = true) (i : Bool) :
    scanQuote v i = i ∧ noUnquotedSpace v i = true := by
  induction v generalizing i with
  | nil => exact ⟨rfl, rfl⟩
  | cons c v ih =>
    rw [plainChars, List.all_cons, Bool.and_eq_true] at h
    obtain ⟨hc, hrest⟩ := h
    simp only [Bool.and_eq_true, Bool.not_eq_true', decide_eq_false_iff_not] at hc
    have ihv := ih hrest
    constructor
    · rw [scanQuote, if_neg hc.1]
      exact (ihv i).1
    · rw [noUnquotedSpace, if_neg (fun hh => hc.2 hh.1), if_neg hc.1]
      exact (ihv i).2

theorem noQuote_segment {v : List Char} (h : noQuote v = true) :
    scanQuote v true = true ∧ noUnquotedSpace v true = true := by
  induction v with
  | nil => exact ⟨rfl, rfl⟩
  | cons c v ih =>
    rw [noQuote, List.all_cons, Bool.and_eq_true] at h
    obtain ⟨hc, hrest⟩ := h
    simp only [Bool.not_eq_true', decide_eq_false_iff_not] at hc
    have ihv := ih hrest
    constructor
    · rw [scanQuote, if_neg hc]
      exact ihv.1
    · rw [noUnquotedSpace, if_neg (fun hh => Bool.noConfusion hh.2), if_neg hc]
      exact ihv.2

theorem splitTokensAux_consume (t : List Char) :
    ∀ (rest : List Char) (inQuote : Bool) (cur : List Char),
    noUnquotedSpace t inQuote = true →
    splitTokensAux (t ++ rest) inQuote cur =
      splitTokensAux rest (scanQuote t inQuote) (t.reverse ++ cur) := by
  induction t with
  | nil =>
    intro rest inQuote cur _
    rfl
  | cons c t ih =>
    intro rest inQuote cur h
    rw [noUnquotedSpace] at h
    rw [List.cons_append, splitTokensAux]
    by_cases hsp : c = spaceChar ∧ inQuote = false
    · rw [if_pos hsp] at h
      exact absurd h (by simp)
    · rw [if_neg hsp] at h
      rw [if_neg hsp]
      simp only [scanQuote, List.reverse_cons, List.append_assoc, List.singleton_append]
      by_cases hq : c = quoteChar
      · rw [if_pos hq] at h ⊢
        rw [if_pos hq]
        exact ih rest (!inQuote) (c :: cur) h
      · rw [if_neg hq] at h ⊢
        rw [if_neg hq]
        exact ih rest inQuote (c :: cur) h

/-- Tokenizing the space-joined rendering of a list of nonempty, quote-safe
tokens recovers exactly those tokens. -/
theorem splitTokens_joinTokens :
    ∀ (ts : List (List Char)),
    (∀ t ∈ ts, t ≠ [] ∧ noUnquotedSpace t false = true ∧ scanQuote t false = false) →
    splitTokens (joinTokens ts) = ts := by
  intro ts
  induction ts with
  | nil =>
    intro _
    rfl
  | cons t ts ih =>
    intro h
    obtain ⟨hne, hns, hsq⟩ := h t (List.mem_cons_self _ _)
    cases ts with
    | nil =>
      have hj : joinTokens [t] = t := rfl
      rw [hj, splitTokens]
      have hc := splitTokensAux_consume t [] false [] hns
      rw [List.append_nil] at hc
      rw [hc, splitTokensAux]
      rw [if_neg (by simp [hne])]
      simp
    | cons t2 ts2 =>
      have hj : joinTokens (t :: t2 :: ts2) = t ++ spaceChar :: joinTokens (t2 :: ts2) := rfl
      rw [hj, splitTokens, splitTokensAux_consume t _ false [] hns, hsq]
      rw [splitTokensAux]
      rw [if_pos ⟨rfl, rfl⟩]
      rw [if_neg (by simp [hne])]
      simp only [List.append_nil, List.reverse_reverse]
      have := ih (fun x hx => h x (List.mem_cons_of_mem _ hx))
      rw [splitTokens] at this
      rw [this]

theorem keyValid_plain {k : List Char} (h : keyValidB k = true) : plainChars k = true := by
  rw [keyValidB, decide_eq_true_iff] at h
  simp only [historyFilterKeys, List.map_cons, List.map_nil] at h
  fin_cases h <;> decide

theorem keyValid_no_colon {k : List Char} (h : keyValidB k = true) :
    ∀ c ∈ k, c ≠ colonChar := by
  rw [keyValidB, decide_eq_true_iff] at h
  simp only [historyFilterKeys, List.map_cons, List.map_nil] at h
  fin_cases h <;> decide

theorem defaultFilterKey_valid : keyValidB defaultFilterKey = true := by decide

theorem splitAtColon_append {k : List Char} (hk : ∀ c ∈ k, c ≠ colonChar)
    (rest : List Char) : splitAtColon (k ++ colonChar :: rest) = some (k, rest) := by
  induction k with
  | nil => simp [splitAtColon]
  | cons c k ih =>
    rw [List.cons_append, splitAtColon,
      if_neg (hk c (List.mem_cons_self _ _)),
      ih (fun x hx => hk x (List.mem_cons_of_mem _ hx))]

theorem parseVal_renderVal {val : FilterVal} (h : canonicalVal val = true) :
    parseVal (renderVal val) = val := by
  cases val with
  | quoted w =>
    rw [renderVal, parseVal, if_pos ?hc]
    case hc =>
      refine ⟨rfl, ?_, ?_⟩
      · exact List.getLast?_concat _
      · simp
    · congr 1
      simp
  | unquoted w =>
    rw [canonicalVal, Bool.and_eq_true] at h
    obtain ⟨hplain, hlow⟩ := h
    rw [renderVal, parseVal, if_neg ?hnc]
    case hnc =>
      intro hcond
      cases w with
      | nil => exact Option.noConfusion hcond.1
      | cons c w2 =>
        rw [plainChars, List.all_cons, Bool.and_eq_true] at hplain
        have hc := hplain.1
        simp only [Bool.and_eq_true, Bool.not_eq_true', decide_eq_false_iff_not] at hc
        rw [List.head?_cons] at hcond
        exact hc.1 (Option.some.inj hcond.1)
    · rw [beq_iff_eq] at hlow
      rw [hlow]

theorem parseToken_renderEntry {k : List Char} {val : FilterVal}
    (hk : keyValidB k = true) (hv : canonicalVal val = true) :
    parseToken (renderEntry (k, val)) = some (k, val) := by
  rw [renderEntry, parseToken]
  rw [splitAtColon_append (keyValid_no_colon hk) (renderVal val)]
  show (if keyValidB k = true then some (k, parseVal (renderVal val)) else none) = some (k, val)
  rw [if_pos hk, parseVal_renderVal hv]

theorem renderVal_safe {val : FilterVal} (h : canonicalVal val = true) :
    scanQuote (renderVal val) false = false ∧
    noUnquotedSpace (renderVal val) false = true := by
  cases val with
  | quoted w =>
    rw [canonicalVal] at h
    have hseg := noQuote_segment h
    rw [renderVal]
    have hqq : quoteChar = quoteChar := rfl
    constructor
    · rw [List.cons_append, scanQuote, if_pos hqq]
      simp only [Bool.not_false]
      rw [scanQuote_append, hseg.1, scanQuote, if_pos hqq]
      rfl
    · rw [List.cons_append, noUnquotedSpace,
        if_neg (fun hh => (by decide : quoteChar ≠ spaceChar) hh.1), if_pos hqq]
      simp only [Bool.not_false]
      rw [noUnquotedSpace_append, hseg.1, hseg.2]
      rw [noUnquotedSpace, if_neg (fun hh => Bool.noConfusion hh.2)]
      rfl
  | unquoted w =>
    rw [canonicalVal, Bool.and_eq_true] at h
    rw [renderVal]
    exact ⟨(plain_segment h.1 false).1, (plain_segment h.1 false).2⟩

theorem renderEntry_safe {p : List Char × FilterVal} (h : canonicalEntry p = true) :
    renderEntry p ≠ [] ∧ noUnquotedSpace (renderEntry p) false = true ∧
    scanQuote (renderEntry p) false = false := by
  obtain ⟨k, val⟩ := p
  rw [canonicalEntry, Bool.and_eq_true] at h
  obtain ⟨hk, hv⟩ := h
  have hkp := keyValid_plain hk
  have hvs := renderVal_safe hv
  have hcq : colonChar ≠ quoteChar := by decide
  have hcs : colonChar ≠ spaceChar := by decide
  refine ⟨?_, ?_, ?_⟩
  · rw [renderEntry]
    simp
  · rw [renderEntry, noUnquotedSpace_append, (plain_segment hkp false).1,
      (plain_segment hkp false).2]
    rw [noUnquotedSpace, if_neg (fun hh => hcs hh.1), if_neg hcq]
    rw [hvs.2]
    rfl
  · rw [renderEntry, scanQuote_append, (plain_segment hkp false).1]
    rw [scanQuote, if_neg hcq]
    exact hvs.1

theorem setFilterValue_fst (k : List Char) (v : FilterVal) (p : List Char × FilterVal) :
    (if p.1 == k then (k, v) else p).1 = p.1 := by
  by_cases h : (p.1 == k) = true
  · rw [if_pos h]
    exact (beq_iff_eq.mp h).symm
  · rw [if_neg h]

theorem mem_setFilterValue {q : List (List Char × FilterVal)} {k : List Char}
    {v : FilterVal} {p : List Char × FilterVal} (h : p ∈ setFilterValue q k v) :
    p ∈ q ∨ p = (k, v) := by
  rw [setFilterValue] at h
  split at h
  · obtain ⟨p0, hp0, he⟩ := List.mem_map.mp h
    by_cases hk : (p0.1 == k) = true
    · rw [if_pos hk] at he
      exact Or.inr he.symm
    · rw [if_neg hk] at he
      exact Or.inl (he ▸ hp0)
  · rcases List.mem_append.mp h with h1 | h2
    · exact Or.inl h1
    · simp only [List.mem_singleton] at h2
      exact Or.inr h2

theorem pairwise_setFilterValue {q : List (List Char × FilterVal)} {k : List Char}
    {v : FilterVal} (h : List.Pairwise (fun a b => a.1 ≠ b.1) q) :
    List.Pairwise (fun a b => a.1 ≠ b.1) (setFilterValue q k v) := by
  rw [setFilterValue]
  split
  · rw [List.pairwise_map]
    refine h.imp ?_
    intro a b hab
    rw [setFilterValue_fst, setFilterValue_fst]
    exact hab
  · next hany =>
    rw [List.pairwise_append]
    refine ⟨h, List.pairwise_singleton _ _, ?_⟩
    intro a ha b hb
    simp only [List.mem_singleton] at hb
    subst hb
    intro he
    exact hany (List.any_eq_true.mpr ⟨a, ha, by rw [he]; exact beq_self_eq_true k⟩)

theorem parseToken_canonical {t : List Char} (h : wfToken t = true)
    {k : List Char} {val : FilterVal} (hp : parseToken t = some (k, val)) :
    canonicalEntry (k, val) = true := by
  rw [wfToken] at h
  rw [parseToken] at hp
  cases hs : splitAtColon t with
  | none =>
    rw [hs] at h hp
    injection hp with hp2
    rw [← hp2, canonicalEntry, defaultFilterKey_valid, Bool.true_and, canonicalVal,
      Bool.and_eq_true]
    exact ⟨plainChars_lowerChars h, by rw [lowerChars_idem]; exact beq_self_eq_true _⟩
  | some kv =>
    obtain ⟨k0, v0⟩ := kv
    rw [hs] at h hp
    rw [Bool.and_eq_true] at h
    have hp1 : (if keyValidB k0 = true then some (k0, parseVal v0) else none) =
        some (k, val) := hp
    rw [if_pos h.1] at hp1
    injection hp1 with hp2
    rw [← hp2, canonicalEntry, h.1, Bool.true_and]
    have h2 := h.2
    rw [wfRawValue] at h2
    by_cases hh : v0.head? = some quoteChar
    · rw [if_pos hh] at h2
      simp only [Bool.and_eq_true, beq_iff_eq, decide_eq_true_iff] at h2
      rw [parseVal, if_pos ⟨hh, h2.1.1, h2.1.2⟩, canonicalVal]
      exact h2.2
    · rw [if_neg hh] at h2
      rw [parseVal, if_neg (fun hc => hh hc.1), canonicalVal, Bool.and_eq_true]
      exact ⟨plainChars_lowerChars h2, by rw [lowerChars_idem]; exact beq_self_eq_true _⟩

theorem foldl_applyToken_render :
    ∀ (entries q0 : List (List Char × FilterVal)),
    (∀ p ∈ entries, canonicalEntry p = true) →
    List.Pairwise (fun a b => a.1 ≠ b.1) entries →
    (∀ p ∈ entries, q0.any (fun p0 => p0.1 == p.1) = false) →
    List.foldl applyToken q0 (entries.map renderEntry) = q0 ++ entries := by
  intro entries
  induction entries with
  | nil =>
    intro q0 _ _ _
    simp
  | cons p rest ih =>
    intro q0 hc hpw hf
    obtain ⟨k, val⟩ := p
    rw [List.map_cons, List.foldl_cons]
    have hck := hc _ (List.mem_cons_self _ _)
    rw [canonicalEntry, Bool.and_eq_true] at hck
    obtain ⟨hhead, htail⟩ := List.pairwise_cons.mp hpw
    have hstep : applyToken q0 (renderEntry (k, val)) = q0 ++ [(k, val)] := by
      rw [applyToken, parseToken_renderEntry hck.1 hck.2]
      show setFilterValue q0 k val = q0 ++ [(k, val)]
      rw [setFilterValue, if_neg (by rw [hf _ (List.mem_cons_self _ _)]; exact Bool.noConfusion)]
    rw [hstep]
    rw [ih (q0 ++ [(k, val)]) (fun x hx => hc x (List.mem_cons_of_mem _ hx)) htail ?fresh]
    case fresh =>
      intro x hx
      rw [List.any_append, hf x (List.mem_cons_of_mem _ hx), Bool.false_or]
      have hne := hhead x hx
      simp only [List.any_cons, List.any_nil, Bool.or_false]
      exact beq_eq_false_iff_ne.mpr hne
    rw [List.append_assoc]
    rfl

/-- Parsing the rendering of a canonical query object recovers it
exactly. -/
theorem parse_toFilterText_of_canonical {q : List (List Char × FilterVal)}
    (hc : ∀ p ∈ q, canonicalEntry p = true)
    (hpw : List.Pairwise (fun a b => a.1 ≠ b.1) q) :
    parseFilterText (toFilterText q) = q := by
  rw [parseFilterText, toFilterText]
  have htl : (String.mk (joinTokens (q.map renderEntry))).toList =
      joinTokens (q.map renderEntry) := rfl
  rw [htl]
  rw [splitTokens_joinTokens (q.map renderEntry) ?safe]
  case safe =>
    intro t ht
    obtain ⟨p, hpq, rfl⟩ := List.mem_map.mp ht
    exact renderEntry_safe (hc p hpq)
  have := foldl_applyToken_render q [] hc hpw (fun p _ => rfl)
  simpa using this

/-- The query object produced by `parseFilterText` on a well-formed string is
canonical: every entry has a valid key and a normalized value, and keys are
pairwise distinct. -/
theorem parse_canonical_aux :
    ∀ (ts : List (List Char)) (q : List (List Char × FilterVal)),
    (∀ t ∈ ts, wfToken t = true) →
    (∀ p ∈ q, canonicalEntry p = true) →
    List.Pairwise (fun a b => a.1 ≠ b.1) q →
    (∀ p ∈ ts.foldl applyToken q, canonicalEntry p = true) ∧
    List.Pairwise (fun a b => a.1 ≠ b.1) (ts.foldl applyToken q) := by
  intro ts
  induction ts with
  | nil =>
    intro q _ hq hpw
    exact ⟨hq, hpw⟩
  | cons t ts ih =>
    intro q hwf hq hpw
    rw [List.foldl_cons]
    apply ih
    · exact fun x hx => hwf x (List.mem_cons_of_mem _ hx)
    · intro p hpq
      rw [applyToken] at hpq
      cases hpt : parseToken t with
      | none =>
        rw [hpt] at hpq
        exact hq p hpq
      | some kv =>
        obtain ⟨k, v⟩ := kv
        rw [hpt] at hpq
        rcases mem_setFilterValue hpq with h1 | h2
        · exact hq p h1
        · rw [h2]
          exact parseToken_canonical (hwf t (List.mem_cons_self _ _)) hpt
    · rw [applyToken]
      cases hpt : parseToken t with
      | none => exact hpw
      | some kv =>
        obtain ⟨k, v⟩ := kv
        exact pairwise_setFilterValue hpw

/-- C6: for every well-formed filter string over the `HistoryFilters`
definitions, `toString(parse(s))` is semantically equivalent to `s` — it
parses to the same query object, with the same active filters and values,
quoted values preserved verbatim and unquoted values case-normalized. -/
theorem filter_text_roundtrip (s : String) (h : wellFormedFilterText s = true) :
    parseFilterText (toFilterText (parseFilterText s)) = parseFilterText s := by
  rw [wellFormedFilterText, List.all_eq_true] at h
  have hq := parse_canonical_aux (splitTokens s.toList) [] h
    (fun p hp => absurd hp (List.not_mem_nil p)) List.Pairwise.nil
  exact parse_toFilterText_of_canonical hq.1 hq.2

/-- Concrete well-formed filter text used by the C6 witness: represents the
string `name:FOO tag:'Bar Baz'`. -/
def sampleFilterText : String :=
  String.mk ("name:FOO tag:".toList ++ (quoteChar :: "Bar Baz".toList) ++ [quoteChar])

/-- Witness for C6 at a concrete input: the concrete filter text is
well-formed and round-trips through `toFilterText` after parsing. -/
theorem filter_text_roundtrip_witness :
    wellFormedFilterText sampleFilterText = true ∧
    parseFilterText (toFilterText (parseFilterText sampleFilterText)) =
      parseFilterText sampleFilterText :=
  ⟨by decide, filter_text_roundtrip sampleFilterText (by decide)⟩

end Galaxy
